import Mathlib

/-!
Verification of django-multiform (src/multiform/forms.py).

The repository is a composition adapter: `MultiForm` wraps several django
sub-forms behind a single form-like surface.  Its own logic is the
constructor-argument routing (`_normalize_init_signature`,
`_init_wrapped_forms`, `get_base_forms`), the per-parameter transform hooks
(`dispatch_init_<param>`), and the result aggregation (`_combine`,
`full_clean`).  Everything else is delegated to django and is treated as an
opaque boundary here.

The embedding below models Python values with a small inductive, Python
dicts (and `OrderedDict`) with association lists over `String` keys whose
operations mirror dict semantics (lookup of the first matching key, in-place
replacement on assignment, `pop`, sequential `update`), and exceptions with
`Except`.  Constructed sub-forms are recorded as the keyword-argument set
their constructor receives: the sub-form classes themselves are external to
the repository.
-/

/-- A model of the Python values that flow through the constructor routing:
`None`, booleans, ints, strings, the `ErrorList` class object used as the
`error_class` default, the `InvalidArgument` sentinel that `src/tests/forms.py`
imports from `multiform`, and references to persisted objects (model
instances) by identity. -/
inductive PyVal where
  | none
  | bool (b : Bool)
  | int (n : Int)
  | str (s : String)
  | errorListClass
  | invalidArgument
  | objRef (id : String)
deriving DecidableEq, Repr

/-- Python dicts keyed by strings are modelled as association lists in
insertion order. -/
abbrev AListS (α : Type) := List (String × α)

/-- Dict lookup `d[k]` / `d.get(k)`: the first entry with the given key. -/
def alGet (k : String) : AListS α → Option α
  | [] => Option.none
  | kv :: rest => if kv.1 = k then some kv.2 else alGet k rest

/-- Dict membership test `k in d`. -/
def alHasKey (k : String) (l : AListS α) : Bool := (alGet k l).isSome

/-- Dict assignment `d[k] = v`: replace the entry in place if the key is
present, otherwise append a new entry (insertion-order semantics). -/
def alSet (k : String) (v : α) : AListS α → AListS α
  | [] => [(k, v)]
  | kv :: rest => if kv.1 = k then (k, v) :: rest else kv :: alSet k v rest

/-- Dict `d.update(e)`: assign every entry of `e` into `d`, left to right. -/
def alUpdate (d e : AListS α) : AListS α := e.foldl (fun d kv => alSet kv.1 kv.2 d) d

/-- `d.get(k, dflt)` / `defaultdict` read. -/
def alGetD (k : String) (l : AListS α) (dflt : α) : α := (alGet k l).getD dflt

/-- Keys of a dict, in order. -/
def alKeys (l : AListS α) : List String := l.map Prod.fst

/-- Dict `d.pop(k)`: the removed value (if any) together with the remaining
entries; removes the first entry carrying the key. -/
def popA (k : String) : AListS α → Option α × AListS α
  | [] => (Option.none, [])
  | kv :: rest =>
      if kv.1 = k then (some kv.2, rest)
      else
        let r := popA k rest
        (r.1, kv :: r.2)

/-- `OrderedDict(iterable_of_pairs)`: sequential insertion into an empty
dict, so a later duplicate key overwrites in place. -/
def odict (l : AListS α) : AListS α := alUpdate [] l

/-- Helper for `str.partition('__')` on the character list: the part before
the first occurrence of two consecutive underscores and the part after it,
or `none` when there is no occurrence. -/
def splitDunderChars : List Char → Option (List Char × List Char)
  | [] => Option.none
  | c :: rest =>
      if c = '_' ∧ rest.head? = some '_' then some ([], rest.tail)
      else
        match splitDunderChars rest with
        | some pr => some (c :: pr.1, pr.2)
        | Option.none => Option.none

/-- `k.partition('__')` as used in `_init_wrapped_forms` (forms.py line 85):
the part before the first `__` and, when the separator occurs, the remainder
after it. -/
def splitDunder (s : String) : String × Option String :=
  match splitDunderChars s.data with
  | some pr => (String.mk pr.1, some (String.mk pr.2))
  | Option.none => (s, Option.none)

/-- The guard of forms.py line 86: an extra keyword named `k` is dispatched
to sub-form `p` with stripped key `r` exactly when `p, _, r = k.partition('__')`
finds a separator, `r` is non-empty and `p` is the name of a wrapped form. -/
def dispatchTarget (names : List String) (k : String) : Option (String × String) :=
  match splitDunder k with
  | (p, some r) => if r ≠ "" ∧ p ∈ names then some (p, r) else Option.none
  | (_, Option.none) => Option.none

/-- The exceptions raised by the construction path: the two `TypeError`s of
`_normalize_init_signature` and the `ImproperlyConfigured` of
`get_base_forms`. -/
inductive InitError where
  | tooManyPositional
  | duplicateArgument (k : String)
  | improperlyConfigured
deriving DecidableEq, Repr

/-- `MultiForm._baseform_signature` (forms.py lines 25-34): the fixed
signature, an ordered mapping from parameter name to default value. -/
def multiform_signature : AListS PyVal :=
  [("data", PyVal.none),
   ("files", PyVal.none),
   ("auto_id", PyVal.str "id_%s"),
   ("prefix", PyVal.none),
   ("initial", PyVal.none),
   ("error_class", PyVal.errorListClass),
   ("label_suffix", PyVal.str ":"),
   ("empty_permitted", PyVal.bool false)]

/-- `MultiModelForm._baseform_signature` (forms.py lines 218-219): the base
signature extended with `instance`, defaulting to `None`. -/
def multimodelform_signature : AListS PyVal :=
  multiform_signature ++ [("instance", PyVal.none)]

/-- The loop of forms.py lines 57-61: walk `zip(signature, args)` assigning
each positional argument to its parameter name, raising a `TypeError` when a
name so assigned is also present in `kwargs`. -/
def assignPositional : List String → List PyVal → AListS PyVal → AListS PyVal →
    Except InitError (AListS PyVal)
  | _, [], norm, _ => .ok norm
  | [], _ :: _, norm, _ => .ok norm
  | k :: ks, a :: rest, norm, kwargs =>
      if alHasKey k kwargs then .error (.duplicateArgument k)
      else assignPositional ks rest (alSet k a norm) kwargs

/-- The loop of forms.py lines 63-67: for each signature name not covered by
a positional argument, pop it out of `kwargs` into the normalized dict when
present (the `KeyError` of a missing key is swallowed). -/
def popRemaining : List String → AListS PyVal → AListS PyVal → AListS PyVal × AListS PyVal
  | [], norm, kw => (norm, kw)
  | k :: ks, norm, kw =>
      let p := popA k kw
      match p.1 with
      | some v => popRemaining ks (alSet k v norm) p.2
      | Option.none => popRemaining ks norm kw

/-- `MultiForm._normalize_init_signature` (forms.py lines 44-71): reject too
many positional arguments, copy the signature defaults, assign positional
arguments (rejecting duplicates), pop the remaining signature names out of
`kwargs`, and return the normalized signature-bound dict together with the
leftover extra keywords. -/
def mf_normalize (sig : AListS PyVal) (args : List PyVal) (kwargs : AListS PyVal) :
    Except InitError (AListS PyVal × AListS PyVal) :=
  if args.length > sig.length then .error .tooManyPositional
  else
    match assignPositional (alKeys sig) args sig kwargs with
    | .error e => .error e
    | .ok norm => .ok (popRemaining ((alKeys sig).drop args.length) norm kwargs)

/-- The `base_forms` declaration of a `MultiForm` subclass: absent (the
`MultiForm` default `None`), a list of name/class pairs, or a mapping
(a `dict` or `OrderedDict`, given here in iteration order). -/
inductive BaseFormsDecl where
  | absent
  | pairs (l : AListS String)
  | mapping (l : AListS String)
deriving DecidableEq, Repr

/-- `MultiForm.get_base_forms` (forms.py lines 126-135): raise
`ImproperlyConfigured` when `base_forms` is missing or falsy (an empty list
or empty mapping), otherwise return `OrderedDict(self.base_forms)`. -/
def get_base_forms : BaseFormsDecl → Except InitError (AListS String)
  | .absent => .error .improperlyConfigured
  | .pairs l => if l.isEmpty then .error .improperlyConfigured else .ok (odict l)
  | .mapping l => if l.isEmpty then .error .improperlyConfigured else .ok (odict l)

/-- The body of the signature loop of forms.py lines 109-113 for one
parameter: when the class defines a `dispatch_init_<k>` hook, use the result
of calling it with the wrapped form's name and the original value, otherwise
pass the value unchanged.  A class's hook table maps a parameter name to its
hook when one is defined. -/
def applyHook (hooks : String → Option (String → PyVal → PyVal)) (name k : String)
    (v : PyVal) : PyVal :=
  match hooks k with
  | some h => h name v
  | Option.none => v

/-- The signature step of forms.py lines 108-113: a fresh dict receives, for
each signature-bound parameter in order, the (possibly hook-transformed)
value.  `sig_kwargs` comes from `_normalize_init_signature` and carries each
signature name exactly once, so sequential insertion is a map over the
entries. -/
def buildSigPart (hooks : String → Option (String → PyVal → PyVal)) (name : String)
    (sig_kwargs : AListS PyVal) : AListS PyVal :=
  sig_kwargs.map fun kv => (kv.1, applyHook hooks name kv.1 kv.2)

/-- `dispatched_kwargs[p][r] = v` on a `defaultdict(dict)` (forms.py line 87). -/
def dispInsert (d : AListS (AListS PyVal)) (p r : String) (v : PyVal) :
    AListS (AListS PyVal) :=
  alSet p (alSet r v (alGetD p d [])) d

/-- The extraction loop of forms.py lines 83-87, accumulated left to right
over the extra keywords: every keyword with a dispatch target is popped into
the per-form dict of stripped keywords. -/
def buildDisp (names : List String) : AListS PyVal → AListS (AListS PyVal) →
    AListS (AListS PyVal)
  | [], d => d
  | kv :: rest, d =>
      match dispatchTarget names kv.1 with
      | some pr => buildDisp names rest (dispInsert d pr.1 pr.2 kv.2)
      | Option.none => buildDisp names rest d

/-- The extra keywords left after the extraction loop (forms.py line 89):
exactly those without a dispatch target, in their original order, since the
loop pops the dispatched ones out of `extra_kwargs`. -/
def remainingExtras (names : List String) (e : AListS PyVal) : AListS PyVal :=
  e.filter fun kv => (dispatchTarget names kv.1).isNone

/-- A `MultiForm` subclass as the construction path sees it: its signature,
its `base_forms` declaration, and its table of `dispatch_init_<param>`
hooks.  The hooks are methods on the instance and may read state stored by
the parent `__init__` (e.g. `self.prefix`), so the table is a function of
the normalized signature-bound arguments. -/
structure MFClass where
  sig : AListS PyVal
  base_forms : BaseFormsDecl
  hooks : AListS PyVal → String → Option (String → PyVal → PyVal)

/-- A constructed wrapped form, recorded as its class tag together with the
keyword-argument set passed to its constructor (the classes themselves are
external django forms). -/
abbrev FormInst := String × AListS PyVal

/-- `MultiForm._init_wrapped_forms` (forms.py lines 73-116): fetch the base
forms, extract the `$name__*` keywords, then build each wrapped form's
keyword set in three layers - hook-transformed signature values, the
remaining extra keywords verbatim, and the stripped per-form keywords - each
layer overriding the previous one via `dict.update`.  `self.forms` is an
`OrderedDict` over the (unique) base-form names, built in iteration order. -/
def mf_initWrappedForms (cfg : MFClass) (sig_kwargs extra_kwargs : AListS PyVal) :
    Except InitError (List (String × FormInst)) :=
  match get_base_forms cfg.base_forms with
  | .error e => .error e
  | .ok B =>
      let names := alKeys B
      let disp := buildDisp names extra_kwargs []
      let rem := remainingExtras names extra_kwargs
      let hooks := cfg.hooks sig_kwargs
      .ok (B.map fun bc =>
        (bc.1, (bc.2,
          alUpdate (alUpdate (buildSigPart hooks bc.1 sig_kwargs) rem)
            (alGetD bc.1 disp []))))

/-- `MultiForm.__init__` (forms.py lines 36-39): normalize the arguments,
run the parent `BaseForm.__init__` on the signature-bound ones (framework
side: it only stores attributes such as `self.prefix`), then build the
wrapped forms. -/
def mf_init (cfg : MFClass) (args : List PyVal) (kwargs : AListS PyVal) :
    Except InitError (List (String × FormInst)) :=
  match mf_normalize cfg.sig args kwargs with
  | .error e => .error e
  | .ok se => mf_initWrappedForms cfg se.1 se.2

/-- The keyword argument a given wrapped form's constructor received under a
given name, when construction succeeded and the form exists. -/
def formArg (r : Except InitError (List (String × FormInst))) (name key : String) :
    Option PyVal :=
  match r with
  | .ok F => (alGet name F).bind fun f => alGet key f.2
  | .error _ => Option.none

/-- Python truthiness of the modelled values (used by `add_prefix`). -/
def pyTruthy : PyVal → Bool
  | PyVal.none => false
  | PyVal.bool b => b
  | PyVal.int n => n ≠ 0
  | PyVal.str s => !s.isEmpty
  | _ => true

/-- Rendering of a modelled value under `'%s' %`, for the string values that
can reach `add_prefix` in practice. -/
def pyToStr : PyVal → String
  | PyVal.str s => s
  | PyVal.none => "None"
  | PyVal.bool b => if b then "True" else "False"
  | PyVal.int n => toString n
  | PyVal.errorListClass => "ErrorList"
  | PyVal.invalidArgument => "InvalidArgument"
  | PyVal.objRef i => i

/-- Django's `BaseForm.add_prefix` as called by `dispatch_init_prefix`:
`'%s-%s' % (self.prefix, field_name) if self.prefix else field_name`, with
`self.prefix` holding the normalized `prefix` argument. -/
def add_prefix_model (selfPfx : PyVal) (field_name : String) : PyVal :=
  if pyTruthy selfPfx then PyVal.str (pyToStr selfPfx ++ "-" ++ field_name)
  else PyVal.str field_name

/-- `MultiForm.dispatch_init_prefix` (forms.py lines 118-124): when
instantiating a wrapped form, return `self.add_prefix(name)`, ignoring the
passed value. -/
def dispatch_init_prefix_model (selfPfx : PyVal) (name : String) (_v : PyVal) : PyVal :=
  add_prefix_model selfPfx name

/-- The hook table of plain `MultiForm`: only `dispatch_init_prefix` is
defined; `self.prefix` was stored by the parent `__init__` from the
normalized `prefix` argument. -/
def multiFormHooks (sig_kwargs : AListS PyVal) :
    String → Option (String → PyVal → PyVal) :=
  fun k =>
    if k = "prefix" then
      some (dispatch_init_prefix_model (alGetD "prefix" sig_kwargs PyVal.none))
    else Option.none

/-- `MultiModelForm.dispatch_init_instance` (forms.py lines 225-228):
`if instance is None: return None` then `return getattr(instance, name)`.
The composite instance is modelled as its attribute dictionary (`none` on
the left is Python `None`); the result is `none` exactly when Python would
raise `AttributeError` on a missing attribute. -/
def dispatch_init_instance (name : String) (inst : Option (AListS PyVal)) :
    Option PyVal :=
  match inst with
  | Option.none => some PyVal.none
  | some attrs => alGet name attrs

/-- The framework-side validation outcome of one wrapped sub-form: its error
dict (field name to messages; django populates it when the `errors` property
is read, which runs the sub-form's own `full_clean`) and its cleaned-data
dict. -/
structure SubFormResult where
  errors : AListS (List String)
  cleaned_data : AListS PyVal
deriving DecidableEq, Repr

/-- `MultiForm._combine` (forms.py lines 137-155) for attribute access
(`call=False`), over the `forms` ordered dict: collect `name -> getter form`
into a fresh ordered dict, skipping falsy values when `filter` is set.
Truthiness of the attribute value is supplied by `istruthy`.  The names are
unique (they are the keys of `self.forms`), so sequential insertion builds
the list in iteration order. -/
def mf_combine (getter : SubFormResult → α) (filt : Bool) (istruthy : α → Bool) :
    List (String × SubFormResult) → AListS α
  | [] => []
  | (name, form) :: rest =>
      let v := getter form
      if !filt || istruthy v then (name, v) :: mf_combine getter filt istruthy rest
      else mf_combine getter filt istruthy rest

/-- The validation-relevant state of a composite: its wrapped forms'
outcomes, the `_errors` attribute (`None` until `full_clean` runs) and the
`cleaned_data` attribute (`none` here models the attribute being unassigned,
as on a freshly constructed form). -/
structure MFValidationState where
  forms : List (String × SubFormResult)
  errors : Option (AListS (AListS (List String)))
  cleaned_data : Option (AListS (AListS PyVal))
deriving DecidableEq, Repr

/-- `MultiForm.full_clean` (forms.py lines 186-193):
`self._errors = self._combine('errors', filter=True)` - which reads every
sub-form's `errors` property, running each sub-form's own validation - and,
only when that aggregate dict is falsy (empty),
`self.cleaned_data = self._combine('cleaned_data')`. -/
def mf_full_clean (st : MFValidationState) : MFValidationState :=
  let errs := mf_combine (fun f => f.errors) true (fun e => !e.isEmpty) st.forms
  if errs.isEmpty then
    { st with errors := some errs,
              cleaned_data :=
                some (mf_combine (fun f => f.cleaned_data) false (fun _ => true) st.forms) }
  else
    { st with errors := some errs }

/-- The base-forms declaration of `SampleMultiForm` in `src/tests/forms.py`. -/
def sampleBaseForms : AListS String :=
  [("empty", "EmptyForm"), ("capture", "CapturingForm"),
   ("media", "MediaForm"), ("foo", "FooForm")]

/-- The class `SampleMultiForm` from `src/tests/forms.py`: the plain
`MultiForm` signature and hooks over the sample base forms. -/
def sampleMultiForm : MFClass :=
  { sig := multiform_signature, base_forms := .pairs sampleBaseForms,
    hooks := multiFormHooks }

/-- A `MultiForm` subclass modelling the pattern of `MultiFormWithInvalidArgument`
in `src/tests/forms.py`: it keeps the default hook table and adds a
`dispatch_init_initial` hook that returns the `InvalidArgument` sentinel,
which per the spec should make every sub-form omit the `initial` parameter. -/
def sentinelHookMultiForm : MFClass :=
  { sig := multiform_signature,
    base_forms := .pairs [("foo", "FooForm"), ("capture", "CapturingForm")],
    hooks := fun s k =>
      if k = "initial" then some (fun _ _ => PyVal.invalidArgument)
      else multiFormHooks s k }

/-- A subclass whose declared sub-form names are "a" and "a__b" (both legal
Python identifiers), used to probe prefixed-keyword routing. -/
def dunderNameMultiForm : MFClass :=
  { sig := multiform_signature, base_forms := .pairs [("a", "A"), ("a__b", "B")],
    hooks := multiFormHooks }

/-- A subclass with a single sub-form "b", used to probe the interaction of a
global extra keyword with a prefixed keyword that strips to the same name. -/
def singleSubMultiForm : MFClass :=
  { sig := multiform_signature, base_forms := .pairs [("b", "B")],
    hooks := multiFormHooks }

/-! ### Association-list lemmas -/

theorem alKeys_nil : alKeys ([] : AListS α) = ([] : List String) := rfl

theorem alKeys_cons (kv : String × α) (l : AListS α) :
    alKeys (kv :: l) = kv.1 :: alKeys l := rfl

theorem mem_alKeys {k : String} {l : AListS α} : k ∈ alKeys l ↔ ∃ v, (k, v) ∈ l := by
  induction l with
  | nil => simp [alKeys_nil]
  | cons kv rest ih =>
    obtain ⟨k1, v1⟩ := kv
    rw [alKeys_cons]
    simp only [List.mem_cons, ih, Prod.mk.injEq]
    constructor
    · rintro (h | ⟨v, hv⟩)
      · exact ⟨v1, Or.inl ⟨h, rfl⟩⟩
      · exact ⟨v, Or.inr hv⟩
    · rintro ⟨v, (⟨h1, _⟩ | hv)⟩
      · exact Or.inl h1
      · exact Or.inr ⟨v, hv⟩

theorem alGet_set_self (k : String) (v : α) (l : AListS α) :
    alGet k (alSet k v l) = some v := by
  induction l with
  | nil => simp [alSet, alGet]
  | cons kv rest ih =>
    by_cases h : kv.1 = k
    · simp [alSet, alGet, h]
    · simp [alSet, alGet, h, ih]

theorem alGet_set_other {k k' : String} (h : k' ≠ k) (v : α) (l : AListS α) :
    alGet k' (alSet k v l) = alGet k' l := by
  induction l with
  | nil => simp [alSet, alGet, Ne.symm h]
  | cons kv rest ih =>
    by_cases hk : kv.1 = k
    · subst hk
      simp [alSet, alGet, Ne.symm h]
    · simp [alSet, alGet, hk, ih]

theorem alGet_eq_none_iff {k : String} {l : AListS α} :
    alGet k l = Option.none ↔ k ∉ alKeys l := by
  induction l with
  | nil => simp [alGet, alKeys_nil]
  | cons kv rest ih =>
    by_cases h : kv.1 = k
    · subst h
      simp [alGet, alKeys_cons]
    · simp [alGet, alKeys_cons, h, ih, Ne.symm h]

theorem exists_alGet_of_mem {k : String} {l : AListS α} (h : k ∈ alKeys l) :
    ∃ v, alGet k l = some v := by
  cases hv : alGet k l with
  | none => exact absurd (alGet_eq_none_iff.mp hv) (by simp [h])
  | some v => exact ⟨v, rfl⟩

theorem alGet_of_mem_nodup {l : AListS α} (hn : (alKeys l).Nodup) {k : String} {v : α}
    (h : (k, v) ∈ l) : alGet k l = some v := by
  induction l with
  | nil => simp at h
  | cons kv rest ih =>
    rw [alKeys_cons, List.nodup_cons] at hn
    rcases List.mem_cons.mp h with heq | hmem
    · subst heq; simp [alGet]
    · have hk : kv.1 ≠ k := by
        intro hh
        exact hn.1 (hh ▸ mem_alKeys.mpr ⟨v, hmem⟩)
      simp only [alGet, hk, if_false]
      exact ih hn.2 hmem

theorem mem_alKeys_set {k' k : String} {v : α} {l : AListS α} :
    k' ∈ alKeys (alSet k v l) ↔ k' ∈ alKeys l ∨ k' = k := by
  induction l with
  | nil => simp [alSet, alKeys_nil, alKeys_cons]
  | cons kv rest ih =>
    by_cases h : kv.1 = k
    · subst h
      simp [alSet, alKeys_cons]
      tauto
    · simp [alSet, alKeys_cons, h, ih]
      tauto

theorem alKeys_set_of_mem {k : String} {v : α} {l : AListS α} (h : k ∈ alKeys l) :
    alKeys (alSet k v l) = alKeys l := by
  induction l with
  | nil => simp [alKeys_nil] at h
  | cons kv rest ih =>
    by_cases hk : kv.1 = k
    · subst hk
      simp [alSet, alKeys_cons]
    · rw [alKeys_cons] at h
      have hr : k ∈ alKeys rest := by
        rcases List.mem_cons.mp h with hh | hh
        · exact absurd hh.symm hk
        · exact hh
      simp [alSet, alKeys_cons, hk, ih hr]

theorem alSet_eq_append {k : String} {v : α} {l : AListS α} (h : k ∉ alKeys l) :
    alSet k v l = l ++ [(k, v)] := by
  induction l with
  | nil => simp [alSet]
  | cons kv rest ih =>
    rw [alKeys_cons] at h
    have hk : kv.1 ≠ k := fun hh => h (by simp [hh])
    have hr : k ∉ alKeys rest := fun hh => h (by simp [hh])
    simp [alSet, hk, ih hr]

theorem nodup_alKeys_set {k : String} {v : α} {l : AListS α} (h : (alKeys l).Nodup) :
    (alKeys (alSet k v l)).Nodup := by
  by_cases hm : k ∈ alKeys l
  · rw [alKeys_set_of_mem hm]; exact h
  · rw [alSet_eq_append hm]
    have hkeys : alKeys (l ++ [(k, v)]) = alKeys l ++ [k] := by
      unfold alKeys; simp
    rw [hkeys]
    exact List.Nodup.append h (List.nodup_singleton k)
      (fun x hx hxk => hm (by simp at hxk; exact hxk ▸ hx))

theorem alUpdate_nil (d : AListS α) : alUpdate d [] = d := rfl

theorem alUpdate_cons (d : AListS α) (kv : String × α) (e : AListS α) :
    alUpdate d (kv :: e) = alUpdate (alSet kv.1 kv.2 d) e := rfl

theorem alGet_update_of_none {k : String} {e : AListS α}
    (h : alGet k e = Option.none) (d : AListS α) :
    alGet k (alUpdate d e) = alGet k d := by
  induction e generalizing d with
  | nil => simp [alUpdate]
  | cons kv rest ih =>
    rw [alUpdate_cons]
    have hk : kv.1 ≠ k := by
      intro hh; simp [alGet, hh] at h
    have hr : alGet k rest = Option.none := by
      simpa [alGet, hk] using h
    rw [ih hr, alGet_set_other (Ne.symm hk)]

theorem alGet_update_of_some {k : String} {v : α} {e : AListS α}
    (hn : (alKeys e).Nodup) (h : alGet k e = some v) (d : AListS α) :
    alGet k (alUpdate d e) = some v := by
  induction e generalizing d with
  | nil => simp [alGet] at h
  | cons kv rest ih =>
    rw [alUpdate_cons]
    rw [alKeys_cons, List.nodup_cons] at hn
    by_cases hk : kv.1 = k
    · have hv : kv.2 = v := by
        have := h
        simp only [alGet, hk, if_true] at this
        exact Option.some.inj this
      have hr : alGet k rest = Option.none := by
        rw [alGet_eq_none_iff]
        exact fun hmem => hn.1 (hk ▸ hmem)
      rw [alGet_update_of_none hr, hk, hv, alGet_set_self]
    · have hr : alGet k rest = some v := by simpa [alGet, hk] using h
      exact ih hn.2 hr _

theorem mem_alKeys_update {k : String} {d e : AListS α} :
    k ∈ alKeys (alUpdate d e) ↔ k ∈ alKeys d ∨ k ∈ alKeys e := by
  induction e generalizing d with
  | nil => simp [alUpdate, alKeys_nil]
  | cons kv rest ih =>
    rw [alUpdate_cons, ih, alKeys_cons, mem_alKeys_set]
    simp only [List.mem_cons]
    tauto

theorem nodup_alKeys_update {d e : AListS α} (h : (alKeys d).Nodup) :
    (alKeys (alUpdate d e)).Nodup := by
  induction e generalizing d with
  | nil => simpa [alUpdate]
  | cons kv rest ih =>
    rw [alUpdate_cons]
    exact ih (nodup_alKeys_set h)

theorem alUpdate_eq_append {d e : AListS α} (hd : ∀ k ∈ alKeys e, k ∉ alKeys d)
    (he : (alKeys e).Nodup) : alUpdate d e = d ++ e := by
  induction e generalizing d with
  | nil => simp [alUpdate]
  | cons kv rest ih =>
    rw [alUpdate_cons]
    rw [alKeys_cons, List.nodup_cons] at he
    have h1 : kv.1 ∉ alKeys d := hd kv.1 (by rw [alKeys_cons]; simp)
    rw [alSet_eq_append h1]
    rw [ih (fun k hk => by
      have hkeys : alKeys (d ++ [(kv.1, kv.2)]) = alKeys d ++ [kv.1] := by
        unfold alKeys; simp
      rw [hkeys, List.mem_append]
      rintro (hkd | hkk)
      · exact hd k (by rw [alKeys_cons]; simp [hk]) hkd
      · simp at hkk
        exact he.1 (hkk ▸ hk)) he.2]
    simp

theorem mem_alKeys_odict {k : String} {l : AListS α} :
    k ∈ alKeys (odict l) ↔ k ∈ alKeys l := by
  unfold odict
  rw [mem_alKeys_update]
  simp [alKeys_nil]

theorem nodup_alKeys_odict (l : AListS α) : (alKeys (odict l)).Nodup := by
  unfold odict
  exact nodup_alKeys_update (by simp [alKeys_nil])

theorem odict_eq_self {l : AListS α} (h : (alKeys l).Nodup) : odict l = l := by
  unfold odict
  rw [alUpdate_eq_append (by simp [alKeys_nil]) h]
  simp

/-! ### Lemmas about pop and the signature normalizer -/

theorem popA_fst (k : String) (l : AListS α) : (popA k l).1 = alGet k l := by
  induction l with
  | nil => simp [popA, alGet]
  | cons kv rest ih =>
    by_cases h : kv.1 = k
    · simp [popA, alGet, h]
    · simp [popA, alGet, h, ih]

theorem popA_snd_sublist (k : String) (l : AListS α) : List.Sublist (popA k l).2 l := by
  induction l with
  | nil => simp [popA]
  | cons kv rest ih =>
    by_cases h : kv.1 = k
    · simp only [popA, h, if_true]
      exact List.Sublist.cons kv (List.Sublist.refl rest)
    · simp only [popA, h, if_false]
      exact List.Sublist.cons₂ kv ih

theorem alGet_popA_other {k k' : String} (h : k' ≠ k) (l : AListS α) :
    alGet k' (popA k l).2 = alGet k' l := by
  induction l with
  | nil => simp [popA]
  | cons kv rest ih =>
    by_cases hk : kv.1 = k
    · subst hk
      simp [popA, alGet, Ne.symm h]
    · simp [popA, alGet, hk, ih]

theorem popRemaining_snd_sublist (ks : List String) (norm kw : AListS PyVal) :
    List.Sublist (popRemaining ks norm kw).2 kw := by
  induction ks generalizing norm kw with
  | nil => simp [popRemaining]
  | cons k ks ih =>
    simp only [popRemaining]
    cases hp : (popA k kw).1 with
    | none => exact ih norm kw
    | some v =>
      exact List.Sublist.trans (ih (alSet k v norm) (popA k kw).2) (popA_snd_sublist k kw)

theorem alGet_popRemaining {k : String} {ks : List String} (h : k ∉ ks)
    (norm kw : AListS PyVal) : alGet k (popRemaining ks norm kw).2 = alGet k kw := by
  induction ks generalizing norm kw with
  | nil => simp [popRemaining]
  | cons k1 ks ih =>
    have hk1 : k ≠ k1 := fun hh => h (by simp [hh])
    have hks : k ∉ ks := fun hh => h (by simp [hh])
    simp only [popRemaining]
    cases hp : (popA k1 kw).1 with
    | none => exact ih hks norm kw
    | some v => rw [ih hks (alSet k1 v norm) (popA k1 kw).2, alGet_popA_other hk1]

theorem popRemaining_nochange {ks : List String} {kw : AListS PyVal}
    (h : ∀ s ∈ ks, alHasKey s kw = false) (norm : AListS PyVal) :
    popRemaining ks norm kw = (norm, kw) := by
  induction ks with
  | nil => simp [popRemaining]
  | cons k ks ih =>
    have hk : alGet k kw = Option.none := by
      have := h k (by simp)
      simpa [alHasKey, Option.isSome_iff_exists] using this
    simp only [popRemaining, popA_fst, hk]
    exact ih (fun s hs => h s (by simp [hs]))

theorem assignPositional_dup {ks : List String} {args : List PyVal}
    {kwargs : AListS PyVal} (h : ∃ s ∈ ks.take args.length, alHasKey s kwargs = true)
    (norm : AListS PyVal) :
    ∃ s, assignPositional ks args norm kwargs = .error (.duplicateArgument s) := by
  induction ks generalizing args norm with
  | nil => simp at h
  | cons k ks ih =>
    cases args with
    | nil => simp at h
    | cons a rest =>
      by_cases hk : alHasKey k kwargs
      · exact ⟨k, by simp [assignPositional, hk]⟩
      · simp only [List.length_cons, List.take_succ_cons, List.mem_cons] at h
        rcases h with ⟨s, hs | hs, hks⟩
        · exact absurd (hs ▸ hks) (by simp [hk])
        · have ⟨s', hs'⟩ := ih ⟨s, hs, hks⟩ (alSet k a norm)
          exact ⟨s', by simp [assignPositional, hk, hs']⟩

/-! ### Lemmas about value-maps, filters and the dispatch extraction -/

theorem alGet_mapVal (g : String → α → β) (k : String) (l : AListS α) :
    alGet k (l.map fun p => (p.1, g p.1 p.2)) = (alGet k l).map (g k) := by
  induction l with
  | nil => simp [alGet]
  | cons kv rest ih =>
    by_cases h : kv.1 = k
    · subst h
      simp [alGet]
    · simp [alGet, h, ih]

theorem alKeys_mapVal (g : String → α → β) (l : AListS α) :
    alKeys (l.map fun p => (p.1, g p.1 p.2)) = alKeys l := by
  unfold alKeys
  simp

theorem alGet_filter_of_some {p : String × α → Bool} {k : String} {v : α}
    {l : AListS α} (h : alGet k l = some v) (hp : p (k, v) = true) :
    alGet k (l.filter p) = some v := by
  induction l with
  | nil => simp [alGet] at h
  | cons kv rest ih =>
    by_cases hk : kv.1 = k
    · obtain ⟨k1, v1⟩ := kv
      simp only at hk
      subst hk
      have hv : v1 = v := by simpa [alGet] using h
      subst hv
      simp [List.filter_cons, hp, alGet]
    · have hr : alGet k rest = some v := by simpa [alGet, hk] using h
      rw [List.filter_cons]
      by_cases hkeep : p kv
      · simp only [hkeep, if_true]
        simp [alGet, hk, ih hr]
      · simp only [hkeep, if_false]
        exact ih hr

theorem alGet_buildDisp_of_absent {names : List String} {key : String}
    {E : AListS PyVal}
    (hE : ∀ kv ∈ E, ((dispatchTarget names kv.1).all fun pr => pr.2 != key) = true) :
    ∀ d : AListS (AListS PyVal), (∀ m, alGet key (alGetD m d []) = Option.none) →
    ∀ m, alGet key (alGetD m (buildDisp names E d) []) = Option.none := by
  induction E with
  | nil => intro d hd m; simpa [buildDisp] using hd m
  | cons kv rest ih =>
    intro d hd m
    have hkv := hE kv (by simp)
    have hrest : ∀ kv' ∈ rest,
        ((dispatchTarget names kv'.1).all fun pr => pr.2 != key) = true :=
      fun kv' h' => hE kv' (by simp [h'])
    cases ht : dispatchTarget names kv.1 with
    | none =>
      simp only [buildDisp, ht]
      exact ih hrest d hd m
    | some pr =>
      have hne : pr.2 ≠ key := by
        rw [ht] at hkv
        simpa [Option.all] using hkv
      simp only [buildDisp, ht]
      refine ih hrest _ (fun m' => ?_) m
      unfold dispInsert alGetD
      by_cases hm : pr.1 = m'
      · subst hm
        rw [alGet_set_self]
        simp only [Option.getD_some]
        rw [alGet_set_other (Ne.symm hne)]
        exact hd pr.1
      · rw [alGet_set_other (Ne.symm hm)]
        exact hd m'

/-! ### Lemmas about the validation aggregation -/

theorem mem_alKeys_mf_combine {forms : List (String × SubFormResult)}
    {getter : SubFormResult → α} {filt : Bool} {istruthy : α → Bool} {n : String}
    (h : n ∈ alKeys (mf_combine getter filt istruthy forms)) : n ∈ alKeys forms := by
  induction forms with
  | nil => simpa [mf_combine] using h
  | cons kv rest ih =>
    rw [alKeys_cons]
    simp only [mf_combine] at h
    split at h
    · rw [alKeys_cons] at h
      rcases List.mem_cons.mp h with hh | hh
      · simp [hh]
      · simp [ih hh]
    · simp [ih h]

theorem alGet_mf_combine {forms : List (String × SubFormResult)}
    (hn : (alKeys forms).Nodup) (getter : SubFormResult → α) (filt : Bool)
    (istruthy : α → Bool) {n : String} {f : SubFormResult}
    (h : alGet n forms = some f) :
    alGet n (mf_combine getter filt istruthy forms) =
      if !filt || istruthy (getter f) then some (getter f) else Option.none := by
  induction forms with
  | nil => simp [alGet] at h
  | cons kv rest ih =>
    obtain ⟨n1, f1⟩ := kv
    rw [alKeys_cons, List.nodup_cons] at hn
    by_cases hk : n1 = n
    · subst hk
      have hf : f1 = f := by simpa [alGet] using h
      subst hf
      have habs : alGet n1 (mf_combine getter filt istruthy rest) = Option.none := by
        rw [alGet_eq_none_iff]
        exact fun hmem => hn.1 (mem_alKeys_mf_combine hmem)
      by_cases hinc : (!filt || istruthy (getter f1)) = true
      · simp only [mf_combine, hinc, if_true, alGet, if_pos rfl]
      · simp only [mf_combine, if_neg hinc]
        exact habs
    · have hr : alGet n rest = some f := by simpa [alGet, hk] using h
      simp only [mf_combine]
      split
      · simp only [alGet, hk, if_false]
        exact ih hn.2 hr
      · exact ih hn.2 hr

theorem alKeys_mf_combine_nofilter (getter : SubFormResult → α) (istruthy : α → Bool)
    (forms : List (String × SubFormResult)) :
    alKeys (mf_combine getter false istruthy forms) = alKeys forms := by
  induction forms with
  | nil => rfl
  | cons kv rest ih =>
    simp only [mf_combine, Bool.not_false, Bool.true_or, if_true]
    rw [alKeys_cons, alKeys_cons, ih]

theorem mf_combine_eq_nil {forms : List (String × SubFormResult)}
    {getter : SubFormResult → α} {istruthy : α → Bool}
    (h : ∀ kv ∈ forms, istruthy (getter kv.2) = false) :
    mf_combine getter true istruthy forms = [] := by
  induction forms with
  | nil => simp [mf_combine]
  | cons kv rest ih =>
    have hkv := h kv (by simp)
    simp only [mf_combine, Bool.not_true, Bool.false_or, hkv, if_false]
    exact ih (fun kv' h' => h kv' (by simp [h']))

/-! ### The signature parameter names contain no double underscore -/

theorem multiform_sig_no_dunder :
    ∀ s ∈ alKeys multiform_signature, splitDunder s = (s, Option.none) := by decide

theorem dispatchTarget_of_no_dunder {s : String}
    (h : splitDunder s = (s, Option.none)) (names : List String) :
    dispatchTarget names s = Option.none := by
  simp [dispatchTarget, h]

theorem not_sig_of_dispatchTarget {names : List String} {s : String}
    {pr : String × String} (h : dispatchTarget names s = some pr) :
    s ∉ alKeys multiform_signature := by
  intro hs
  rw [dispatchTarget_of_no_dunder (multiform_sig_no_dunder s hs) names] at h
  exact Option.noConfusion h

/-! ### Reduction lemmas for the construction path -/

theorem assignPositional_nil_args (ks : List String) (norm kwargs : AListS PyVal) :
    assignPositional ks [] norm kwargs = .ok norm := by
  cases ks <;> rfl

theorem mf_init_ok (cfg : MFClass) {args : List PyVal} {kwargs : AListS PyVal}
    {se : AListS PyVal × AListS PyVal}
    (h : mf_normalize cfg.sig args kwargs = .ok se) :
    mf_init cfg args kwargs = mf_initWrappedForms cfg se.1 se.2 := by
  unfold mf_init
  rw [h]

theorem get_base_forms_pairs_ok {l : AListS String} (h : l.isEmpty = false) :
    get_base_forms (.pairs l) = .ok (odict l) := by
  simp [get_base_forms, h]

theorem get_base_forms_mapping_ok {l : AListS String} (h : l.isEmpty = false) :
    get_base_forms (.mapping l) = .ok (odict l) := by
  simp [get_base_forms, h]

theorem mf_initWrappedForms_ok (cfg : MFClass) {s e : AListS PyVal} {B : AListS String}
    (h : get_base_forms cfg.base_forms = .ok B) :
    mf_initWrappedForms cfg s e = .ok (B.map fun bc =>
      (bc.1, (bc.2,
        alUpdate (alUpdate (buildSigPart (cfg.hooks s) bc.1 s)
          (remainingExtras (alKeys B) e)) (alGetD bc.1 (buildDisp (alKeys B) e []) [])))) := by
  unfold mf_initWrappedForms
  rw [h]

theorem mf_normalize_only_extras {sig kwargs : AListS PyVal}
    (h : ∀ s ∈ alKeys sig, alHasKey s kwargs = false) :
    mf_normalize sig [] kwargs = .ok (sig, kwargs) := by
  unfold mf_normalize
  rw [if_neg (by simp)]
  simp only [assignPositional_nil_args, List.length_nil, List.drop_zero,
    popRemaining_nochange h]

theorem mf_normalize_no_args (sig kwargs : AListS PyVal) :
    mf_normalize sig [] kwargs = .ok (popRemaining (alKeys sig) sig kwargs) := by
  unfold mf_normalize
  rw [if_neg (by simp)]
  simp only [assignPositional_nil_args, List.length_nil, List.drop_zero]

theorem formArg_wrapped {B : AListS String} {s e : AListS PyVal}
    {hooks : String → Option (String → PyVal → PyVal)} {m : String} {c : String}
    (key : String) (hc : alGet m B = some c) :
    formArg (.ok (B.map fun bc =>
      (bc.1, (bc.2,
        alUpdate (alUpdate (buildSigPart hooks bc.1 s)
          (remainingExtras (alKeys B) e)) (alGetD bc.1 (buildDisp (alKeys B) e []) []))))) m key
    = alGet key (alUpdate (alUpdate (buildSigPart hooks m s)
        (remainingExtras (alKeys B) e)) (alGetD m (buildDisp (alKeys B) e []) [])) := by
  simp only [formArg]
  rw [alGet_mapVal (fun a b => ((b : String),
    alUpdate (alUpdate (buildSigPart hooks a s)
      (remainingExtras (alKeys B) e)) (alGetD a (buildDisp (alKeys B) e []) []))) m B, hc]
  rfl

theorem alKeys_wrapped (B : AListS String) (s e : AListS PyVal)
    (hooks : String → Option (String → PyVal → PyVal)) :
    alKeys (B.map fun bc =>
      (bc.1, (bc.2,
        alUpdate (alUpdate (buildSigPart hooks bc.1 s)
          (remainingExtras (alKeys B) e)) (alGetD bc.1 (buildDisp (alKeys B) e []) []))))
    = alKeys B := by
  exact alKeys_mapVal (fun a b => ((b : String),
    alUpdate (alUpdate (buildSigPart hooks a s)
      (remainingExtras (alKeys B) e)) (alGetD a (buildDisp (alKeys B) e []) []))) B

/-! ### Claim theorems -/

/-- Claim C1: the spec says a transform hook returning the `InvalidArgument`
sentinel makes that parameter be omitted entirely from the sub-form's keyword
set.  The code in `src/multiform/forms.py` (lines 108-116) stores the hook's
return value unconditionally, so evaluating the construction path for a
subclass whose `dispatch_init_initial` hook returns the sentinel shows every
sub-form constructed with `initial` bound to the sentinel itself - the
parameter is not omitted.  (`src/tests/forms.py` imports `InvalidArgument`
from the package and its `MultiFormWithInvalidArgument` tests rely on the
omission, so the code contradicts its own tests.) -/
theorem claim_C1_sentinel_passed_not_omitted :
    formArg (mf_init sentinelHookMultiForm [] []) "foo" "initial"
        = some PyVal.invalidArgument ∧
      formArg (mf_init sentinelHookMultiForm [] []) "capture" "initial"
        = some PyVal.invalidArgument := by
  decide

/-- Claim C4: with a base-forms declaration that is absent, an empty list or
an empty mapping, construction raises `ImproperlyConfigured` (for every call
whose arguments pass the signature normalizer), and the error is returned
before any sub-form is built. -/
theorem claim_C4_empty_declaration (sig : AListS PyVal)
    (hooksF : AListS PyVal → String → Option (String → PyVal → PyVal))
    (args : List PyVal) (kwargs : AListS PyVal) (se : AListS PyVal × AListS PyVal)
    (hnorm : mf_normalize sig args kwargs = .ok se) :
    mf_init ⟨sig, .absent, hooksF⟩ args kwargs = .error .improperlyConfigured ∧
    mf_init ⟨sig, .pairs [], hooksF⟩ args kwargs = .error .improperlyConfigured ∧
    mf_init ⟨sig, .mapping [], hooksF⟩ args kwargs = .error .improperlyConfigured := by
  refine ⟨?_, ?_, ?_⟩
  · rw [mf_init_ok ⟨sig, .absent, hooksF⟩ hnorm]
    simp [mf_initWrappedForms, get_base_forms]
  · rw [mf_init_ok ⟨sig, .pairs [], hooksF⟩ hnorm]
    simp [mf_initWrappedForms, get_base_forms]
  · rw [mf_init_ok ⟨sig, .mapping [], hooksF⟩ hnorm]
    simp [mf_initWrappedForms, get_base_forms]

/-- Witness for C4 at a concrete call: the default construction of a
subclass with no `base_forms`, an empty list and an empty mapping. -/
theorem claim_C4_witness :
    mf_normalize multiform_signature [] [] = .ok (multiform_signature, []) ∧
    mf_init ⟨multiform_signature, .absent, multiFormHooks⟩ [] []
      = .error .improperlyConfigured ∧
    mf_init ⟨multiform_signature, .pairs [], multiFormHooks⟩ [] []
      = .error .improperlyConfigured ∧
    mf_init ⟨multiform_signature, .mapping [], multiFormHooks⟩ [] []
      = .error .improperlyConfigured :=
  ⟨rfl,
   claim_C4_empty_declaration multiform_signature multiFormHooks [] []
     (multiform_signature, []) rfl⟩

/-- Claim C5: `MultiModelForm.dispatch_init_instance` yields `None` for every
sub-form name when no composite instance was given, and otherwise yields the
attribute of the composite instance named after the sub-form, so the
sub-form binds to that nested persisted object. -/
theorem claim_C5_instance_dispatch (n : String) :
    dispatch_init_instance n Option.none = some PyVal.none ∧
    ∀ (attrs : AListS PyVal) (v : PyVal), alGet n attrs = some v →
      dispatch_init_instance n (some attrs) = some v := by
  refine ⟨rfl, fun attrs v h => ?_⟩
  simpa [dispatch_init_instance] using h

/-- Witness for C5 at the Pizza/Topping scenario of the tests: a topping
instance whose `pizza` attribute is a persisted pizza. -/
theorem claim_C5_witness :
    dispatch_init_instance "pizza" Option.none = some PyVal.none ∧
    alGet "pizza" [("pizza", PyVal.objRef "pizza1"), ("name", PyVal.str "tomato sauce")]
      = some (PyVal.objRef "pizza1") ∧
    dispatch_init_instance "pizza"
        (some [("pizza", PyVal.objRef "pizza1"), ("name", PyVal.str "tomato sauce")])
      = some (PyVal.objRef "pizza1") :=
  ⟨(claim_C5_instance_dispatch "pizza").1, rfl,
   (claim_C5_instance_dispatch "pizza").2
     [("pizza", PyVal.objRef "pizza1"), ("name", PyVal.str "tomato sauce")]
     (PyVal.objRef "pizza1") rfl⟩

/-- Claim C7: supplying more positional arguments than the fixed signature
has slots always fails with the too-many-arguments `TypeError`, for any
subclass configuration. -/
theorem claim_C7_too_many_positional (cfg : MFClass) (args : List PyVal)
    (kwargs : AListS PyVal) (h : args.length > cfg.sig.length) :
    mf_init cfg args kwargs = .error .tooManyPositional := by
  unfold mf_init mf_normalize
  rw [if_pos h]

/-- Witness for C7: `SampleMultiForm(*([None] * 9))` - nine positional
arguments against the eight-slot signature. -/
theorem claim_C7_witness :
    (List.replicate 9 PyVal.none).length > sampleMultiForm.sig.length ∧
    mf_init sampleMultiForm (List.replicate 9 PyVal.none) []
      = .error .tooManyPositional :=
  ⟨by decide,
   claim_C7_too_many_positional sampleMultiForm (List.replicate 9 PyVal.none) []
     (by decide)⟩

/-- Claim C8: supplying a signature parameter both positionally and by
keyword fails with a duplicate-argument `TypeError` (given that the call
does not already overflow the positional slots, in which case the arity
`TypeError` of C7 fires first). -/
theorem claim_C8_duplicate_argument (cfg : MFClass) (args : List PyVal)
    (kwargs : AListS PyVal) (hlen : args.length ≤ cfg.sig.length)
    (hdup : ∃ s ∈ (alKeys cfg.sig).take args.length, alHasKey s kwargs = true) :
    ∃ s, mf_init cfg args kwargs = .error (.duplicateArgument s) := by
  obtain ⟨s, hs⟩ := assignPositional_dup hdup cfg.sig
  refine ⟨s, ?_⟩
  unfold mf_init mf_normalize
  rw [if_neg (by omega), hs]

/-- Witness for C8: `SampleMultiForm(None, data=None)` - `data` supplied both
positionally and by keyword. -/
theorem claim_C8_witness :
    [PyVal.none].length ≤ sampleMultiForm.sig.length ∧
    (∃ s ∈ (alKeys sampleMultiForm.sig).take [PyVal.none].length,
      alHasKey s [("data", PyVal.none)] = true) ∧
    ∃ s, mf_init sampleMultiForm [PyVal.none] [("data", PyVal.none)]
      = .error (.duplicateArgument s) :=
  ⟨by decide, by decide,
   claim_C8_duplicate_argument sampleMultiForm [PyVal.none] [("data", PyVal.none)]
     (by decide) (by decide)⟩

/-- Claim C10: when full validation produces a non-empty aggregate error
mapping, `full_clean` only assigns the error mapping and leaves the
cleaned-data attribute exactly as it was - in particular unassigned on a
freshly constructed composite. -/
theorem claim_C10_cleaned_data_unassigned (forms : List (String × SubFormResult))
    (e0 : Option (AListS (AListS (List String))))
    (c0 : Option (AListS (AListS PyVal))) (E : AListS (AListS (List String)))
    (hE : (mf_full_clean ⟨forms, e0, c0⟩).errors = some E) (hne : E ≠ []) :
    (mf_full_clean ⟨forms, e0, c0⟩).cleaned_data = c0 := by
  by_cases hc : (mf_combine (fun f => f.errors) true (fun e => !e.isEmpty) forms).isEmpty
  · exfalso
    unfold mf_full_clean at hE
    rw [if_pos hc] at hE
    simp only [Option.some.injEq] at hE
    apply hne
    rw [← hE]
    exact List.isEmpty_iff.mp hc
  · unfold mf_full_clean
    rw [if_neg hc]

/-- Witness for C10 at the `MultiFormWithNonFieldError` scenario: one
sub-form with a validation error; cleaned data stays unassigned. -/
theorem claim_C10_witness :
    (mf_full_clean ⟨[("error", ⟨[("__all__", ["error"])], []⟩)],
        Option.none, Option.none⟩).errors
      = some [("error", [("__all__", ["error"])])] ∧
    ([("error", [("__all__", ["error"])])] :
      AListS (AListS (List String))) ≠ [] ∧
    (mf_full_clean ⟨[("error", ⟨[("__all__", ["error"])], []⟩)],
        Option.none, Option.none⟩).cleaned_data = Option.none :=
  ⟨rfl, by decide,
   claim_C10_cleaned_data_unassigned
     [("error", ⟨[("__all__", ["error"])], []⟩)] Option.none Option.none
     [("error", [("__all__", ["error"])])] rfl (by decide)⟩

/-- Claim C3: full validation aggregates each sub-form's own validation
outcome: the composite's error mapping has exactly the entries of the
sub-forms whose validation produced errors, and when no sub-form produced
errors the composite's cleaned-data mapping binds every declared sub-form
name to that sub-form's cleaned data, including sub-forms whose cleaned
data is empty. -/
theorem claim_C3_full_clean_aggregation (forms : List (String × SubFormResult))
    (hn : (alKeys forms).Nodup) :
    ∃ E, (mf_full_clean ⟨forms, Option.none, Option.none⟩).errors = some E ∧
      (∀ n f, alGet n forms = some f →
        alGet n E = if f.errors.isEmpty then Option.none else some f.errors) ∧
      (∀ n, n ∈ alKeys E → n ∈ alKeys forms) ∧
      ((∀ kv ∈ forms, kv.2.errors = []) →
        ∃ C, (mf_full_clean ⟨forms, Option.none, Option.none⟩).cleaned_data = some C ∧
          alKeys C = alKeys forms ∧
          ∀ n f, alGet n forms = some f → alGet n C = some f.cleaned_data) := by
  refine ⟨mf_combine (fun f => f.errors) true (fun e => !e.isEmpty) forms,
    ?_, ?_, ?_, ?_⟩
  · unfold mf_full_clean
    dsimp only
    split <;> rfl
  · intro n f h
    rw [alGet_mf_combine hn (fun f => f.errors) true (fun e => !e.isEmpty) h]
    by_cases he : f.errors.isEmpty <;> simp [he]
  · intro n h
    exact mem_alKeys_mf_combine h
  · intro hall
    have hE : mf_combine (fun f => f.errors) true (fun e => !e.isEmpty) forms = [] :=
      mf_combine_eq_nil (fun kv h' => by simp [hall kv h'])
    refine ⟨mf_combine (fun f => f.cleaned_data) false (fun _ => true) forms,
      ?_, ?_, ?_⟩
    · unfold mf_full_clean
      rw [if_pos (by rw [hE]; rfl)]
    · exact alKeys_mf_combine_nofilter _ _ _
    · intro n f h
      rw [alGet_mf_combine hn (fun f => f.cleaned_data) false (fun _ => true) h]
      simp

/-- Witness for C3 at the spec's own example: `SampleMultiForm` validated
with `{'foo-foo': 'yes'}` - sub-forms with empty cleaned data included. -/
theorem claim_C3_witness :
    (alKeys ([("empty", ⟨[], []⟩), ("foo", ⟨[], [("foo", PyVal.str "yes")]⟩)] :
      List (String × SubFormResult))).Nodup ∧
    ∃ E, (mf_full_clean ⟨[("empty", ⟨[], []⟩),
        ("foo", ⟨[], [("foo", PyVal.str "yes")]⟩)], Option.none, Option.none⟩).errors
        = some E ∧
      (∀ n f, alGet n ([("empty", ⟨[], []⟩),
          ("foo", ⟨[], [("foo", PyVal.str "yes")]⟩)] :
          List (String × SubFormResult)) = some f →
        alGet n E = if f.errors.isEmpty then Option.none else some f.errors) ∧
      (∀ n, n ∈ alKeys E →
        n ∈ alKeys ([("empty", ⟨[], []⟩),
          ("foo", ⟨[], [("foo", PyVal.str "yes")]⟩)] :
          List (String × SubFormResult))) ∧
      ((∀ kv ∈ ([("empty", ⟨[], []⟩),
          ("foo", ⟨[], [("foo", PyVal.str "yes")]⟩)] :
          List (String × SubFormResult)), kv.2.errors = []) →
        ∃ C, (mf_full_clean ⟨[("empty", ⟨[], []⟩),
            ("foo", ⟨[], [("foo", PyVal.str "yes")]⟩)],
            Option.none, Option.none⟩).cleaned_data = some C ∧
          alKeys C = alKeys ([("empty", ⟨[], []⟩),
            ("foo", ⟨[], [("foo", PyVal.str "yes")]⟩)] :
            List (String × SubFormResult)) ∧
          ∀ n f, alGet n ([("empty", ⟨[], []⟩),
              ("foo", ⟨[], [("foo", PyVal.str "yes")]⟩)] :
              List (String × SubFormResult)) = some f →
            alGet n C = some f.cleaned_data) :=
  ⟨by decide,
   claim_C3_full_clean_aggregation
     [("empty", ⟨[], []⟩), ("foo", ⟨[], [("foo", PyVal.str "yes")]⟩)] (by decide)⟩

/-- Claim C2, counterexample: the claim quantifies over every declared
sub-form name `n` and key `k`; take declared names "a" and "a__b" and the
call with global extra keyword x="v1" and prefixed keyword a__b__x="v2".
The claim predicts sub-form "a__b" is constructed with x="v2"; the code
splits "a__b__x" at its first "__" into ("a", "b__x"), dispatches it to
sub-form "a" (as the stripped keyword b__x="v2"), and constructs "a__b"
with x="v1". -/
theorem claim_C2_counterexample :
    formArg (mf_init dunderNameMultiForm []
        [("x", PyVal.str "v1"), ("a__b__x", PyVal.str "v2")]) "a__b" "x"
      = some (PyVal.str "v1") ∧
    ¬ (formArg (mf_init dunderNameMultiForm []
        [("x", PyVal.str "v1"), ("a__b__x", PyVal.str "v2")]) "a__b" "x"
      = some (PyVal.str "v2")) ∧
    formArg (mf_init dunderNameMultiForm []
        [("x", PyVal.str "v1"), ("a__b__x", PyVal.str "v2")]) "a" "b__x"
      = some (PyVal.str "v2") := by
  decide

/-- Claim C2 (amended): when the prefixed name `n__k` actually resolves, at
its first "__", to the declared sub-form `n` with non-empty key `k` (true in
particular whenever `n` contains no "__" and does not end in "_"), and the
global key `k` is itself an extra keyword (not a signature parameter name)
with no dispatch target of its own, then a call carrying both k=v1 and
n__k=v2 constructs sub-form `n` with k=v2 and every other sub-form with
k=v1 - prefixed keywords have the highest precedence and are scoped to
their named sub-form only. -/
theorem claim_C2_prefixed_overrides_global
    (hooksF : AListS PyVal → String → Option (String → PyVal → PyVal))
    (bf : AListS String) (n k : String) (v1 v2 : PyVal)
    (hn : n ∈ alKeys (odict bf))
    (hsplit : dispatchTarget (alKeys (odict bf)) (n ++ "__" ++ k) = some (n, k))
    (hknd : dispatchTarget (alKeys (odict bf)) k = Option.none)
    (hksig : k ∉ alKeys multiform_signature) :
    formArg (mf_init ⟨multiform_signature, .pairs bf, hooksF⟩ []
        [(k, v1), (n ++ "__" ++ k, v2)]) n k = some v2 ∧
    ∀ m ∈ alKeys (odict bf), m ≠ n →
      formArg (mf_init ⟨multiform_signature, .pairs bf, hooksF⟩ []
        [(k, v1), (n ++ "__" ++ k, v2)]) m k = some v1 := by
  have hbf : bf.isEmpty = false := by
    cases bf with
    | nil => simp [odict, alUpdate, alKeys_nil] at hn
    | cons a l => rfl
  have hnksig : (n ++ "__" ++ k) ∉ alKeys multiform_signature :=
    not_sig_of_dispatchTarget hsplit
  have hnorm : mf_normalize multiform_signature [] [(k, v1), (n ++ "__" ++ k, v2)]
      = .ok (multiform_signature, [(k, v1), (n ++ "__" ++ k, v2)]) := by
    apply mf_normalize_only_extras
    intro s hs
    have h1 : k ≠ s := fun hh => hksig (hh ▸ hs)
    have h2 : (n ++ "__" ++ k) ≠ s := fun hh => hnksig (hh ▸ hs)
    simp [alHasKey, alGet, h1, h2]
  rw [mf_init_ok ⟨multiform_signature, .pairs bf, hooksF⟩ hnorm,
    mf_initWrappedForms_ok ⟨multiform_signature, .pairs bf, hooksF⟩
      (get_base_forms_pairs_ok hbf)]
  have hdisp : buildDisp (alKeys (odict bf)) [(k, v1), (n ++ "__" ++ k, v2)] []
      = [(n, [(k, v2)])] := by
    simp only [buildDisp, hknd, hsplit, dispInsert, alGetD, alGet, alSet,
      Option.getD_none]
  have hrem : remainingExtras (alKeys (odict bf)) [(k, v1), (n ++ "__" ++ k, v2)]
      = [(k, v1)] := by
    simp only [remainingExtras, List.filter_cons, List.filter_nil, hknd, hsplit,
      Option.isNone_none, Option.isNone_some, if_true, if_false]
    rfl
  have hone : ∀ (d : AListS PyVal) (kk : String) (vv : PyVal),
      alGet kk (alUpdate d [(kk, vv)]) = some vv := by
    intro d kk vv
    rw [alUpdate_cons, alUpdate_nil]
    exact alGet_set_self kk vv d
  constructor
  · obtain ⟨c, hc⟩ := exists_alGet_of_mem hn
    rw [formArg_wrapped k hc, hdisp, hrem]
    rw [show alGetD n [(n, [(k, v2)])] [] = [(k, v2)] from by simp [alGetD, alGet]]
    exact hone _ k v2
  · intro m hm hmn
    obtain ⟨c', hc'⟩ := exists_alGet_of_mem hm
    rw [formArg_wrapped k hc', hdisp, hrem]
    rw [show alGetD m [(n, [(k, v2)])] [] = [] from by
      simp [alGetD, alGet, Ne.symm hmn]]
    rw [alUpdate_nil]
    exact hone _ k v1

/-- Witness for C2 (amended) at the tests' scenario: `SampleMultiForm`
called with a global `capture="global"` and a prefixed
`capture__capture="hello"`; the "capture" sub-form receives "hello", the
"foo" sub-form receives "global". -/
theorem claim_C2_witness :
    "capture" ∈ alKeys (odict sampleBaseForms) ∧
    formArg (mf_init ⟨multiform_signature, .pairs sampleBaseForms, multiFormHooks⟩ []
        [("capture", PyVal.str "global"), ("capture__capture", PyVal.str "hello")])
      "capture" "capture" = some (PyVal.str "hello") ∧
    formArg (mf_init ⟨multiform_signature, .pairs sampleBaseForms, multiFormHooks⟩ []
        [("capture", PyVal.str "global"), ("capture__capture", PyVal.str "hello")])
      "foo" "capture" = some (PyVal.str "global") :=
  ⟨by decide,
   (claim_C2_prefixed_overrides_global multiFormHooks sampleBaseForms "capture"
     "capture" (PyVal.str "global") (PyVal.str "hello") (by decide) (by decide)
     (by decide) (by decide)).1,
   (claim_C2_prefixed_overrides_global multiFormHooks sampleBaseForms "capture"
     "capture" (PyVal.str "global") (PyVal.str "hello") (by decide) (by decide)
     (by decide) (by decide)).2 "foo" (by decide) (by decide)⟩

/-- Claim C9, counterexample: the keyword "x" does not split at a "__" at
all, so per the claim it is passed verbatim with its value "v1" to every
sub-form's constructor; but the call also carries the prefixed keyword
b__x="v2", which the code dispatches to sub-form "b" as x="v2", overriding
the verbatim layer - sub-form "b" is constructed with x="v2", not x="v1". -/
theorem claim_C9_counterexample :
    formArg (mf_init singleSubMultiForm []
        [("x", PyVal.str "v1"), ("b__x", PyVal.str "v2")]) "b" "x"
      = some (PyVal.str "v2") ∧
    ¬ (formArg (mf_init singleSubMultiForm []
        [("x", PyVal.str "v1"), ("b__x", PyVal.str "v2")]) "b" "x"
      = some (PyVal.str "v1")) := by
  decide

/-- Claim C9 (amended): an extra keyword whose name has no dispatch target
(it does not split at its first "__" into a declared sub-form name and a
non-empty remainder) is passed verbatim, under its full original name, into
every sub-form's keyword set; provided no other keyword of the call is a
prefixed keyword whose stripped key equals that name (such a keyword
overrides it for its target sub-form), every sub-form's constructor
receives it with its original value. -/
theorem claim_C9_undispatched_passed_verbatim
    (sig : AListS PyVal)
    (hooksF : AListS PyVal → String → Option (String → PyVal → PyVal))
    (bf : AListS String) (key : String) (value : PyVal) (kwargs : AListS PyVal)
    (hbf : bf.isEmpty = false)
    (hnod : (alKeys kwargs).Nodup)
    (hmem : (key, value) ∈ kwargs)
    (hksig : key ∉ alKeys sig)
    (hknd : dispatchTarget (alKeys (odict bf)) key = Option.none)
    (hno : ∀ kv ∈ kwargs,
      ((dispatchTarget (alKeys (odict bf)) kv.1).all fun pr => pr.2 != key) = true) :
    ∀ m ∈ alKeys (odict bf),
      formArg (mf_init ⟨sig, .pairs bf, hooksF⟩ [] kwargs) m key = some value := by
  rw [mf_init_ok ⟨sig, .pairs bf, hooksF⟩ (mf_normalize_no_args sig kwargs),
    mf_initWrappedForms_ok ⟨sig, .pairs bf, hooksF⟩ (get_base_forms_pairs_ok hbf)]
  have hsub : List.Sublist (popRemaining (alKeys sig) sig kwargs).2 kwargs :=
    popRemaining_snd_sublist _ _ _
  have hnodE : (alKeys (popRemaining (alKeys sig) sig kwargs).2).Nodup :=
    List.Nodup.sublist (List.Sublist.map Prod.fst hsub) hnod
  have hgetE : alGet key (popRemaining (alKeys sig) sig kwargs).2 = some value := by
    rw [alGet_popRemaining hksig]
    exact alGet_of_mem_nodup hnod hmem
  intro m hm
  obtain ⟨c, hc⟩ := exists_alGet_of_mem hm
  rw [formArg_wrapped key hc]
  have hdisp : ∀ m', alGet key (alGetD m' (buildDisp (alKeys (odict bf))
      ((popRemaining (alKeys sig) sig kwargs).2) []) []) = Option.none :=
    alGet_buildDisp_of_absent (fun kv hkv => hno kv (hsub.subset hkv)) []
      (fun m' => by simp [alGetD, alGet])
  rw [alGet_update_of_none (hdisp m)]
  have hrem : alGet key (remainingExtras (alKeys (odict bf))
      ((popRemaining (alKeys sig) sig kwargs).2)) = some value := by
    apply alGet_filter_of_some hgetE
    simp [hknd]
  have hremnod : (alKeys (remainingExtras (alKeys (odict bf))
      ((popRemaining (alKeys sig) sig kwargs).2))).Nodup :=
    List.Nodup.sublist (List.Sublist.map Prod.fst (List.filter_sublist _)) hnodE
  rw [alGet_update_of_some hremnod hrem]

/-- Witness for C9 (amended): `SampleMultiForm` called with a custom
`auto_id` and a keyword "nope__x" whose first segment is not a declared
sub-form name; the "foo" sub-form receives "nope__x" verbatim. -/
theorem claim_C9_witness :
    ("nope__x", PyVal.str "v") ∈
      [("auto_id", PyVal.str "custom"), ("nope__x", PyVal.str "v")] ∧
    dispatchTarget (alKeys (odict sampleBaseForms)) "nope__x" = Option.none ∧
    formArg (mf_init ⟨multiform_signature, .pairs sampleBaseForms, multiFormHooks⟩ []
        [("auto_id", PyVal.str "custom"), ("nope__x", PyVal.str "v")]) "foo" "nope__x"
      = some (PyVal.str "v") :=
  ⟨by decide, by decide,
   claim_C9_undispatched_passed_verbatim multiform_signature multiFormHooks
     sampleBaseForms "nope__x" (PyVal.str "v")
     [("auto_id", PyVal.str "custom"), ("nope__x", PyVal.str "v")]
     (by decide) (by decide) (by decide) (by decide) (by decide) (by decide)
     "foo" (by decide)⟩

/-- Claim C6: for every valid non-empty base-forms declaration - given as a
list of name/constructor pairs or as a mapping - construction succeeds (for
any call passing the signature normalizer) and yields a composite whose
sub-form name set equals the declared name set, whose names are unique, and
whose iteration order is the declaration order (when the declared names are
themselves distinct, as a mapping's keys always are). -/
theorem claim_C6_names_and_order (sig : AListS PyVal)
    (hooksF : AListS PyVal → String → Option (String → PyVal → PyVal))
    (args : List PyVal) (kwargs : AListS PyVal) (se : AListS PyVal × AListS PyVal)
    (hnorm : mf_normalize sig args kwargs = .ok se)
    (bf : AListS String) (hbf : bf.isEmpty = false) :
    (∃ F, mf_init ⟨sig, .pairs bf, hooksF⟩ args kwargs = .ok F ∧
      (∀ x, x ∈ alKeys F ↔ x ∈ alKeys bf) ∧ (alKeys F).Nodup ∧
      ((alKeys bf).Nodup → alKeys F = alKeys bf)) ∧
    (∃ F, mf_init ⟨sig, .mapping bf, hooksF⟩ args kwargs = .ok F ∧
      (∀ x, x ∈ alKeys F ↔ x ∈ alKeys bf) ∧ (alKeys F).Nodup ∧
      ((alKeys bf).Nodup → alKeys F = alKeys bf)) := by
  constructor
  · rw [mf_init_ok ⟨sig, .pairs bf, hooksF⟩ hnorm,
      mf_initWrappedForms_ok ⟨sig, .pairs bf, hooksF⟩ (get_base_forms_pairs_ok hbf)]
    refine ⟨_, rfl, ?_, ?_, ?_⟩
    · intro x
      rw [alKeys_wrapped, mem_alKeys_odict]
    · rw [alKeys_wrapped]
      exact nodup_alKeys_odict bf
    · intro hnd
      rw [alKeys_wrapped, odict_eq_self hnd]
  · rw [mf_init_ok ⟨sig, .mapping bf, hooksF⟩ hnorm,
      mf_initWrappedForms_ok ⟨sig, .mapping bf, hooksF⟩ (get_base_forms_mapping_ok hbf)]
    refine ⟨_, rfl, ?_, ?_, ?_⟩
    · intro x
      rw [alKeys_wrapped, mem_alKeys_odict]
    · rw [alKeys_wrapped]
      exact nodup_alKeys_odict bf
    · intro hnd
      rw [alKeys_wrapped, odict_eq_self hnd]

/-- Witness for C6 at the tests' `SAMPLE_FORMS` declaration, constructed
with no arguments, both as a list of pairs and as a mapping. -/
theorem claim_C6_witness :
    mf_normalize multiform_signature [] [] = .ok (multiform_signature, []) ∧
    sampleBaseForms.isEmpty = false ∧
    (∃ F, mf_init ⟨multiform_signature, .pairs sampleBaseForms, multiFormHooks⟩ [] []
        = .ok F ∧
      (∀ x, x ∈ alKeys F ↔ x ∈ alKeys sampleBaseForms) ∧ (alKeys F).Nodup ∧
      ((alKeys sampleBaseForms).Nodup → alKeys F = alKeys sampleBaseForms)) ∧
    (∃ F, mf_init ⟨multiform_signature, .mapping sampleBaseForms, multiFormHooks⟩ [] []
        = .ok F ∧
      (∀ x, x ∈ alKeys F ↔ x ∈ alKeys sampleBaseForms) ∧ (alKeys F).Nodup ∧
      ((alKeys sampleBaseForms).Nodup → alKeys F = alKeys sampleBaseForms)) :=
  ⟨rfl, rfl,
   (claim_C6_names_and_order multiform_signature multiFormHooks [] []
     (multiform_signature, []) rfl sampleBaseForms rfl).1,
   (claim_C6_names_and_order multiform_signature multiFormHooks [] []
     (multiform_signature, []) rfl sampleBaseForms rfl).2⟩
